import Mathlib

/-!
Shallow embedding of the object-store core of `cmd/mygit/main.go`:
blob framing and hashing (`hashObject`), object unframing on the read
path (`getBlobContent`), tree listing (`lsTree`) and recursive tree
building (`writeTree`), together with the SHA-1 digest they use.
Byte strings are `List Nat` with every element a byte value.
-/

set_option maxRecDepth 1000000

namespace GitGo

/-- Byte strings. -/
abbrev Bytes := List Nat

/-- Bytes of an ASCII string literal (UTF-8 agrees with code points here). -/
def bytesOfString (s : String) : Bytes := s.data.map Char.toNat

/-! ## SHA-1 (`crypto/sha1`), on byte lists, 32-bit words as `Nat % 2^32` -/

/-- Truncate to a 32-bit word. -/
def w32 (x : Nat) : Nat := x % 4294967296

/-- Rotate a 32-bit word left by `k`. -/
def rotl (k x : Nat) : Nat := w32 (x <<< k) ||| (x >>> (32 - k))

/-- Big-endian 4-byte encoding of a 32-bit word. -/
def be32 (x : Nat) : Bytes := [(x >>> 24) % 256, (x >>> 16) % 256, (x >>> 8) % 256, x % 256]

/-- Big-endian 8-byte encoding. -/
def be64 (x : Nat) : Bytes :=
  [(x >>> 56) % 256, (x >>> 48) % 256, (x >>> 40) % 256, (x >>> 32) % 256,
   (x >>> 24) % 256, (x >>> 16) % 256, (x >>> 8) % 256, x % 256]

/-- Group bytes into big-endian 32-bit words (length is a multiple of 4 at all call sites). -/
def toWordsBE : Bytes → List Nat
  | b0 :: b1 :: b2 :: b3 :: rest => (((b0 * 256 + b1) * 256 + b2) * 256 + b3) :: toWordsBE rest
  | _ => []

/-- SHA-1 padding: append `0x80`, zero bytes, and the 64-bit bit length,
so the total length is a multiple of 64. -/
def sha1Pad (msg : Bytes) : Bytes :=
  let k := (64 - ((msg.length + 9) % 64)) % 64
  msg ++ 128 :: (List.replicate k 0 ++ be64 (msg.length * 8))

/-- Split into 64-byte chunks (fuel-based structural recursion; the fuel
`l.length` always suffices since each step consumes at least one byte). -/
def chunk64Aux : Nat → Bytes → List Bytes
  | 0, _ => []
  | _ + 1, [] => []
  | fuel + 1, b :: rest => (b :: rest).take 64 :: chunk64Aux fuel ((b :: rest).drop 64)

/-- Split into 64-byte chunks. -/
def chunk64 (l : Bytes) : List Bytes := chunk64Aux l.length l

/-- Extend the 16 message words by `n` more words (to 80). -/
def extendW (w : List Nat) : Nat → List Nat
  | 0 => w
  | n + 1 =>
    let u := extendW w n
    let j := u.length
    u ++ [rotl 1 ((u.getD (j - 3) 0) ^^^ (u.getD (j - 8) 0) ^^^ (u.getD (j - 14) 0) ^^^ (u.getD (j - 16) 0))]

/-- SHA-1 round function. -/
def sha1F (i b c d : Nat) : Nat :=
  if i < 20 then (b &&& c) ||| ((b ^^^ 4294967295) &&& d)
  else if i < 40 then b ^^^ c ^^^ d
  else if i < 60 then (b &&& c) ||| (b &&& d) ||| (c &&& d)
  else b ^^^ c ^^^ d

/-- SHA-1 round constants. -/
def sha1K (i : Nat) : Nat :=
  if i < 20 then 1518500249
  else if i < 40 then 1859775393
  else if i < 60 then 2400959708
  else 3395469782

/-- The five-word SHA-1 state. -/
structure H5 where
  a : Nat
  b : Nat
  c : Nat
  d : Nat
  e : Nat
deriving DecidableEq

/-- Initial SHA-1 state. -/
def sha1Init : H5 := ⟨1732584193, 4023233417, 2562383102, 271733878, 3285377520⟩

/-- One SHA-1 round. -/
def sha1Round (w : List Nat) (st : H5) (i : Nat) : H5 :=
  let temp := w32 (rotl 5 st.a + sha1F i st.b st.c st.d + st.e + sha1K i + w.getD i 0)
  ⟨temp, st.a, rotl 30 st.b, st.c, st.d⟩

/-- Process one 64-byte chunk. -/
def sha1Compress (h : H5) (chunk : Bytes) : H5 :=
  let w := extendW (toWordsBE chunk) 64
  let st := (List.range 80).foldl (sha1Round w) h
  ⟨w32 (h.a + st.a), w32 (h.b + st.b), w32 (h.c + st.c), w32 (h.d + st.d), w32 (h.e + st.e)⟩

/-- SHA-1 digest of a byte string, as 20 bytes (`sha1.Sum`). -/
def sha1 (msg : Bytes) : Bytes :=
  let h := (chunk64 (sha1Pad msg)).foldl sha1Compress sha1Init
  be32 h.a ++ be32 h.b ++ be32 h.c ++ be32 h.d ++ be32 h.e

/-! ## Decimal formatting (`fmt` verb `%d` for a nonnegative length) -/

/-- Decimal digits of `n`, most significant first, as ASCII bytes.
Fuel-based structural recursion; fuel `n + 1` always suffices. -/
def decDigitsAux : Nat → Nat → Bytes
  | 0, _ => []
  | fuel + 1, n => if n < 10 then [48 + n] else decDigitsAux fuel (n / 10) ++ [48 + n % 10]

/-- ASCII decimal representation of `n`. -/
def decimalBytes (n : Nat) : Bytes := decDigitsAux (n + 1) n

/-! ## Codec framing (spec §4.1): `"<type> <size>\0" ++ body` -/

/-- Frame a body with its type tag and decimal size: `type ++ " " ++ size ++ NUL ++ body`. -/
def frame (ty : String) (body : Bytes) : Bytes :=
  bytesOfString ty ++ [32] ++ decimalBytes body.length ++ [0] ++ body

/-! ## hashObject (main.go:172-182) -/

/-- `fmt.Sprintf("blob %d\x00%s", len(fileContent), fileContent)`. -/
def blobObjectContent (fileContent : Bytes) : Bytes :=
  bytesOfString "blob " ++ decimalBytes fileContent.length ++ [0] ++ fileContent

/-- `hashObject`: the framed blob bytes and their SHA-1 digest.
(The file read is supplied as `fileContent`; the read itself is I/O.) -/
def hashObject (fileContent : Bytes) : Bytes × Bytes :=
  (blobObjectContent fileContent, sha1 (blobObjectContent fileContent))

/-! ## getBlobContent (main.go:164-170), `bytes.IndexByte` -/

/-- `bytes.IndexByte`: index of the first occurrence of `t`, if any. -/
def indexByte : Bytes → Nat → Option Nat
  | [], _ => none
  | b :: rest, t => if b = t then some 0 else (indexByte rest t).map (· + 1)

/-- `getBlobContent`: everything after the first NUL. `none` models the Go
`nil` slice returned (with a nil error — no failure) when no NUL exists. -/
def getBlobContent (blob : Bytes) : Option Bytes :=
  match indexByte blob 0 with
  | none => none
  | some i => some (blob.drop (i + 1))

/-- The read path of `readBlob` after decompression (main.go:161): the result
is always a successful return; `getBlobContent` cannot signal an error. -/
def readBlobDecoded (decompressed : Bytes) : Option Bytes × Option String :=
  (getBlobContent decompressed, none)

/-! ## Byte-wise lexicographic order (`bytes.Compare`, `sort.Strings`) -/

/-- `lexLe a b` iff `bytes.Compare a b <= 0`: byte-wise lexicographic order. -/
def lexLe : Bytes → Bytes → Bool
  | [], _ => true
  | _ :: _, [] => false
  | a :: as, b :: bs => if a < b then true else if a = b then lexLe as bs else false

/-- Insert into a `lexLe`-sorted list. -/
def insertLex (a : Bytes) : List Bytes → List Bytes
  | [] => [a]
  | b :: l => if lexLe a b then a :: b :: l else b :: insertLex a l

/-- Sort by `lexLe` (models `sort.Slice` with `bytes.Compare` and
`sort.Strings`, whose Go string order is also byte-wise lexicographic;
by antisymmetry of `lexLe` any correct sort yields this same list). -/
def sortLex : List Bytes → List Bytes
  | [] => []
  | a :: l => insertLex a (sortLex l)

/-! ## lsTree (main.go:208-265) -/

/-- `bytes.Split(l, " ")` (fuel-based; fuel `l.length` always suffices). -/
def splitBySpaceAux : Nat → Bytes → List Bytes
  | 0, l => [l]
  | fuel + 1, l =>
    match indexByte l 32 with
    | none => [l]
    | some i => l.take i :: splitBySpaceAux fuel (l.drop (i + 1))

/-- `bytes.Split(l, " ")`: split on every space byte. -/
def splitBySpace (l : Bytes) : List Bytes := splitBySpaceAux l.length l

/-- Lowercase hex digit byte. -/
def hexDigit (n : Nat) : Nat := if n < 10 then 48 + n else 87 + n

/-- Two lowercase hex digit bytes of one byte (`%x`). -/
def hexByte (b : Nat) : Bytes := [hexDigit (b / 16), hexDigit (b % 16)]

/-- Lowercase hex of a byte string (`fmt` verb `%x`). -/
def hexBytes (l : Bytes) : Bytes := (l.map hexByte).flatten

/-- Outcome of a Go function: a value, a returned `error`, or a runtime
panic (index/slice out of range). -/
inductive Res (α : Type) where
  | ok : α → Res α
  | err : String → Res α
  | crash : String → Res α
deriving DecidableEq

/-- The entry loop of `lsTree` (main.go:240-261), fuel-based; each iteration
consumes at least 21 bytes, so fuel `content.length` always suffices.
On a missing NUL the Go code `break`s, returning the entries parsed so far;
`parts[1]` with fewer than two parts and `content[:20]` with fewer than 20
bytes left are Go runtime panics. -/
def lsLoopAux (nameOnly : Bool) : Nat → Bytes → Res (List Bytes)
  | 0, _ => .ok []
  | fuel + 1, content =>
    match indexByte content 0 with
    | none => .ok []
    | some i =>
      let entry := content.take i
      let rest := content.drop (i + 1)
      match splitBySpace entry with
      | [] => .crash "index out of range: parts"
      | [_] => .crash "index out of range: parts"
      | mode :: nm :: _ =>
        if rest.length < 20 then .crash "slice bounds out of range: sha"
        else
          let sha := rest.take 20
          let disp := if nameOnly then nm else mode ++ [32] ++ nm ++ [32] ++ hexBytes sha
          match lsLoopAux nameOnly fuel (rest.drop 20) with
          | .ok l => .ok (disp :: l)
          | e => e

/-- The entry loop of `lsTree` over a tree body. -/
def lsLoop (content : Bytes) (nameOnly : Bool) : Res (List Bytes) :=
  lsLoopAux nameOnly content.length content

/-- `lsTree` from the decompressed object bytes on: prefix check, header
split at the first NUL, entry loop, final `sort.Strings`. Display strings
are byte strings (Go strings are raw bytes). -/
def lsTreeBytes (decompressed : Bytes) (nameOnly : Bool) : Res (List Bytes) :=
  if (bytesOfString "tree").isPrefixOf decompressed then
    match indexByte decompressed 0 with
    | none => .err "invalid tree object format"
    | some i =>
      match lsLoop (decompressed.drop (i + 1)) nameOnly with
      | .ok l => .ok (sortLex l)
      | e => e
  else .err "object is not a tree"

/-! ## writeTree (main.go:267-336) -/

/-- The object store: pairs of (digest, framed object bytes), modelling the
files under `.git/objects` (compression is a byte-level bijection on the
way in/out and is elided). -/
abbrev Store := List (Bytes × Bytes)

/-- `writeObject` (main.go:184-206): record the framed bytes at the digest. -/
def writeObject (s : Store) (hash : Bytes) (content : Bytes) : Store :=
  s ++ [(hash, content)]

/-- `ignoredDirs` (main.go:20). -/
def ignoredDirs : List String := [".", "..", ".git"]

/- A filesystem snapshot: regular files with contents, directories with
listings. -/
mutual
inductive FS where
  | file : Bytes → FS
  | dir : Listing → FS
inductive Listing where
  | nil : Listing
  | cons : String → FS → Listing → Listing
end

/-- `fmt.Sprintf("%s %s\x00", mode, name)` followed by the 20 raw hash
bytes (main.go:309-310). -/
def encEntryBytes (mode name : String) (hash : Bytes) : Bytes :=
  bytesOfString mode ++ [32] ++ bytesOfString name ++ [0] ++ hash

/-- `fmt.Sprintf("tree %d\x00%s", len(flat), flat)` (main.go:325). -/
def treeObjectContent (flat : Bytes) : Bytes :=
  bytesOfString "tree " ++ decimalBytes flat.length ++ [0] ++ flat

/-- Wrap a directory's collected entry data as its tree object and write
it (main.go:314-332): sort the encoded entries with `bytes.Compare`,
flatten, frame as a tree, hash, write. -/
def finishTree (s : Store) (entryDatas : List Bytes) : Store × Bytes :=
  let flat := (sortLex entryDatas).flatten
  let obj := treeObjectContent flat
  let h := sha1 obj
  (writeObject s h obj, h)

/-- The entry loop of `writeTree` (main.go:280-312), threading the store:
skip ignored names; for a regular file compute `hashObject` and keep only
the hash (the framed blob content is discarded and never written), mode
`"100644"`; for a directory recurse (`writeTree`), mode `"40000"`. -/
def collectEntries : Listing → Store → Store × List Bytes
  | .nil, s => (s, [])
  | .cons name (FS.file c) rest, s =>
    if name ∈ ignoredDirs then collectEntries rest s
    else
      let r2 := collectEntries rest s
      (r2.1, encEntryBytes "100644" name (hashObject c).2 :: r2.2)
  | .cons name (FS.dir l) rest, s =>
    if name ∈ ignoredDirs then collectEntries rest s
    else
      let r := collectEntries l s
      let rt := finishTree r.1 r.2
      let r2 := collectEntries rest rt.1
      (r2.1, encEntryBytes "40000" name rt.2 :: r2.2)

/-- `writeTree` (main.go:267-336) on one directory level: collect the
entries, then sort, frame, hash and write the tree object, returning the
updated store and the tree's digest. -/
def writeTreeL (l : Listing) (s : Store) : Store × Bytes :=
  let r := collectEntries l s
  finishTree r.1 r.2

/-! ## Derived notions used by the statements -/

/-- The order relation of `lexLe` as a `Prop`. -/
abbrev lexLeP (a b : Bytes) : Prop := lexLe a b = true

/-- The name as the `lsTree` loop recovers it: `parts[1]` of the header
split on spaces, i.e. the stored name truncated at its first space. -/
def goDisplayName (nb : Bytes) : Bytes :=
  match indexByte nb 32 with
  | none => nb
  | some i => nb.take i

/-- Encoded bytes of one logical (mode, name, childHash) entry. -/
def encEntry3 (e : String × String × Bytes) : Bytes :=
  encEntryBytes e.1 e.2.1 e.2.2

/-- A tree body: concatenated encoded entries. -/
def encBody (es : List (String × String × Bytes)) : Bytes :=
  (es.map encEntry3).flatten

/-- The display string `lsTree` produces for one entry: just the recovered
name with `--name-only`, else `"<mode> <name> <hex sha>"`. -/
def displayOf (nameOnly : Bool) (e : String × String × Bytes) : Bytes :=
  if nameOnly then goDisplayName (bytesOfString e.2.1)
  else bytesOfString e.1 ++ [32] ++ goDisplayName (bytesOfString e.2.1) ++ [32] ++ hexBytes e.2.2

/-- Well-formedness of a logical tree entry: the mode is free of NUL and
space bytes, the name is free of NUL bytes, the digest is 20 bytes. -/
abbrev wfEntry (e : String × String × Bytes) : Prop :=
  (∀ x ∈ bytesOfString e.1, x ≠ 0 ∧ x ≠ 32) ∧
  (∀ x ∈ bytesOfString e.2.1, x ≠ 0) ∧
  e.2.2.length = 20

/-- Every name of the listing is in the exclusion set. -/
def allExcludedB : Listing → Bool
  | .nil => true
  | .cons name _ rest => decide (name ∈ ignoredDirs) && allExcludedB rest

/-- The tree object `writeTree` assembles from a list of logical entries:
encode each, sort the encoded bytes, flatten, frame as a tree. -/
def treeObjectOfEntries (es : List (String × String × Bytes)) : Bytes :=
  treeObjectContent ((sortLex (es.map encEntry3)).flatten)

/-! ## The byte-wise lexicographic order is a total order -/

theorem lexLe_cons_iff {x y : Nat} {as bs : Bytes} :
    lexLe (x :: as) (y :: bs) = true ↔ (x < y ∨ (x = y ∧ lexLe as bs = true)) := by
  simp only [lexLe]
  split_ifs with h1 h2
  · simp [h1]
  · simp [h1, h2]
  · simp [h1, h2]

theorem lexLe_total : ∀ a b : Bytes, lexLe a b = true ∨ lexLe b a = true
  | [], _ => Or.inl rfl
  | _ :: _, [] => Or.inr rfl
  | x :: as, y :: bs => by
    rcases Nat.lt_trichotomy x y with h | h | h
    · exact Or.inl (lexLe_cons_iff.mpr (Or.inl h))
    · subst h
      rcases lexLe_total as bs with h2 | h2
      · exact Or.inl (lexLe_cons_iff.mpr (Or.inr ⟨rfl, h2⟩))
      · exact Or.inr (lexLe_cons_iff.mpr (Or.inr ⟨rfl, h2⟩))
    · exact Or.inr (lexLe_cons_iff.mpr (Or.inl h))

theorem lexLe_trans : ∀ a b c : Bytes,
    lexLe a b = true → lexLe b c = true → lexLe a c = true
  | [], _, _, _, _ => rfl
  | _ :: _, [], _, h1, _ => by simp [lexLe] at h1
  | _ :: _, _ :: _, [], _, h2 => by simp [lexLe] at h2
  | x :: as, y :: bs, z :: cs, h1, h2 => by
    rcases lexLe_cons_iff.mp h1 with ha | ⟨hae, har⟩ <;>
      rcases lexLe_cons_iff.mp h2 with hb | ⟨hbe, hbr⟩
    · exact lexLe_cons_iff.mpr (Or.inl (by omega))
    · exact lexLe_cons_iff.mpr (Or.inl (by omega))
    · exact lexLe_cons_iff.mpr (Or.inl (by omega))
    · exact lexLe_cons_iff.mpr (Or.inr ⟨by omega, lexLe_trans as bs cs har hbr⟩)

theorem lexLe_antisymm : ∀ a b : Bytes, lexLe a b = true → lexLe b a = true → a = b
  | [], [], _, _ => rfl
  | [], _ :: _, _, h2 => by simp [lexLe] at h2
  | _ :: _, [], h1, _ => by simp [lexLe] at h1
  | x :: as, y :: bs, h1, h2 => by
    rcases lexLe_cons_iff.mp h1 with ha | ⟨hae, har⟩ <;>
      rcases lexLe_cons_iff.mp h2 with hb | ⟨hbe, hbr⟩
    · omega
    · omega
    · omega
    · rw [hae, lexLe_antisymm as bs har hbr]

instance : IsAntisymm Bytes lexLeP := ⟨fun a b => lexLe_antisymm a b⟩

/-! ## The insertion sort modelling the Go sorts -/

theorem insertLex_perm (a : Bytes) : ∀ l, List.Perm (insertLex a l) (a :: l)
  | [] => List.Perm.refl _
  | b :: l => by
    simp only [insertLex]
    split
    · exact List.Perm.refl _
    · exact (List.Perm.cons b (insertLex_perm a l)).trans (List.Perm.swap a b l)

theorem sortLex_perm : ∀ l, List.Perm (sortLex l) l
  | [] => List.Perm.refl _
  | a :: l => (insertLex_perm a (sortLex l)).trans (List.Perm.cons a (sortLex_perm l))

theorem insertLex_sorted (a : Bytes) :
    ∀ {l : List Bytes}, List.Sorted lexLeP l → List.Sorted lexLeP (insertLex a l)
  | [], _ => List.sorted_singleton a
  | b :: l, h => by
    simp only [insertLex]
    split_ifs with hab
    · rw [List.sorted_cons]
      refine ⟨fun x hx => ?_, h⟩
      rcases List.mem_cons.mp hx with rfl | hx2
      · exact hab
      · exact lexLe_trans a b x hab ((List.sorted_cons.mp h).1 x hx2)
    · rw [List.sorted_cons] at h ⊢
      obtain ⟨hb, hl⟩ := h
      refine ⟨fun x hx => ?_, insertLex_sorted a hl⟩
      rcases List.mem_cons.mp ((insertLex_perm a l).mem_iff.mp hx) with h | hx2
      · subst h
        rcases lexLe_total x b with ht | ht
        · exact absurd ht hab
        · exact ht
      · exact hb x hx2

theorem sortLex_sorted : ∀ l, List.Sorted lexLeP (sortLex l)
  | [] => List.sorted_nil
  | a :: l => insertLex_sorted a (sortLex_sorted l)

theorem sortLex_eq_of_perm {l1 l2 : List Bytes} (h : List.Perm l1 l2) :
    sortLex l1 = sortLex l2 :=
  List.eq_of_perm_of_sorted ((sortLex_perm l1).trans (h.trans (sortLex_perm l2).symm))
    (sortLex_sorted l1) (sortLex_sorted l2)

/-! ## Scanning for a separator byte -/

theorem indexByte_eq_none {t : Nat} : ∀ {l : Bytes}, (∀ x ∈ l, x ≠ t) → indexByte l t = none
  | [], _ => rfl
  | b :: l, h => by
    have hb : b ≠ t := h b (List.mem_cons_self b l)
    have ih := indexByte_eq_none fun x hx => h x (List.mem_cons_of_mem b hx)
    simp only [indexByte, if_neg hb]
    rw [ih]
    rfl

theorem indexByte_sep {t : Nat} :
    ∀ (pre : Bytes) {post : Bytes}, (∀ x ∈ pre, x ≠ t) →
      indexByte (pre ++ t :: post) t = some pre.length
  | [], _, _ => by simp [indexByte]
  | b :: pre, post, h => by
    have hb : b ≠ t := h b (List.mem_cons_self _ _)
    have ih := @indexByte_sep t pre post fun x hx => h x (List.mem_cons_of_mem b hx)
    simp only [List.cons_append, indexByte, if_neg hb, List.append_eq]
    rw [ih]
    rfl

theorem take_sep (pre : Bytes) (t : Nat) (post : Bytes) :
    (pre ++ t :: post).take pre.length = pre :=
  List.take_left pre (t :: post)

theorem drop_sep (pre : Bytes) (t : Nat) (post : Bytes) :
    (pre ++ t :: post).drop (pre.length + 1) = post := by
  have h1 : pre ++ t :: post = (pre ++ [t]) ++ post := by simp
  have h2 : pre.length + 1 = (pre ++ [t]).length := by simp
  rw [h1, h2, List.drop_left]

theorem take_chunk (h : Bytes) (rest : Bytes) (hl : h.length = 20) :
    (h ++ rest).take 20 = h := by
  rw [show 20 = h.length from hl.symm]
  exact List.take_left h rest

theorem drop_chunk (h : Bytes) (rest : Bytes) (hl : h.length = 20) :
    (h ++ rest).drop 20 = rest := by
  rw [show 20 = h.length from hl.symm]
  exact List.drop_left h rest

/-! ## Decimal digits are nonzero bytes -/

theorem decDigitsAux_mem : ∀ (fuel n : Nat), ∀ b ∈ decDigitsAux fuel n, 48 ≤ b ∧ b < 58
  | 0, _ => by intro b hb; simp [decDigitsAux] at hb
  | fuel + 1, n => by
    intro b hb
    simp only [decDigitsAux] at hb
    split_ifs at hb with h
    · simp only [List.mem_singleton] at hb
      omega
    · rcases List.mem_append.mp hb with h1 | h2
      · exact decDigitsAux_mem fuel (n / 10) b h1
      · simp only [List.mem_singleton] at h2
        have : n % 10 < 10 := Nat.mod_lt n (by omega)
        omega

theorem decimalBytes_ne_zero {n : Nat} : ∀ b ∈ decimalBytes n, b ≠ 0 := by
  intro b hb
  have := decDigitsAux_mem (n + 1) n b hb
  omega

/-! ## Framing -/

/-- The two `Sprintf` framings in the source agree with the Codec `frame`. -/
theorem blobObjectContent_eq_frame (b : Bytes) : blobObjectContent b = frame "blob" b := by
  unfold blobObjectContent frame
  rw [(by decide : bytesOfString "blob " = bytesOfString "blob" ++ [32])]

theorem treeObjectContent_eq_frame (b : Bytes) : treeObjectContent b = frame "tree" b := by
  unfold treeObjectContent frame
  rw [(by decide : bytesOfString "tree " = bytesOfString "tree" ++ [32])]

/-- A framed object regrouped around its NUL separator. -/
theorem frame_eq_sep (ty : String) (body : Bytes) :
    frame ty body = (bytesOfString ty ++ 32 :: decimalBytes body.length) ++ 0 :: body := by
  unfold frame
  simp [List.append_assoc]

/-- The header of a `"tree"` or `"blob"` frame contains no NUL byte. -/
theorem frame_hdr_ne_zero {ty : String} (hty : ∀ x ∈ bytesOfString ty, x ≠ 0) (n : Nat) :
    ∀ x ∈ bytesOfString ty ++ 32 :: decimalBytes n, x ≠ 0 := by
  intro x hx
  rcases List.mem_append.mp hx with h1 | h2
  · exact hty x h1
  · rcases List.mem_cons.mp h2 with h3 | h4
    · omega
    · exact decimalBytes_ne_zero x h4

/-! ## Unframing on the blob read path -/

theorem getBlobContent_sep {pre post : Bytes} (h : ∀ x ∈ pre, x ≠ 0) :
    getBlobContent (pre ++ 0 :: post) = some post := by
  simp only [getBlobContent, indexByte_sep pre h, drop_sep]

theorem getBlobContent_eq_none {l : Bytes} (h : ∀ x ∈ l, x ≠ 0) : getBlobContent l = none := by
  simp only [getBlobContent, indexByte_eq_none h]

/-! ## Splitting a header on spaces -/

theorem splitBySpaceAux_head (fuel : Nat) (l : Bytes) (hf : l.length ≤ fuel) :
    ∃ tl, splitBySpaceAux fuel l = goDisplayName l :: tl := by
  cases fuel with
  | zero =>
    have : l = [] := List.eq_nil_of_length_eq_zero (by omega)
    subst this
    exact ⟨[], rfl⟩
  | succ f =>
    simp only [splitBySpaceAux]
    cases hi : indexByte l 32 with
    | none => exact ⟨[], by simp [goDisplayName, hi]⟩
    | some i =>
      exact ⟨splitBySpaceAux f (l.drop (i + 1)), by simp [goDisplayName, hi]⟩

/-- Splitting `mode ++ " " ++ name` on spaces, with a space-free mode:
the first part is the mode and the second the name cut at its first space. -/
theorem splitBySpace_sep (mb nb : Bytes) (hsp : ∀ x ∈ mb, x ≠ 32) :
    ∃ tl, splitBySpace (mb ++ 32 :: nb) = mb :: goDisplayName nb :: tl := by
  have hlen : (mb ++ 32 :: nb).length = (mb.length + nb.length) + 1 := by
    simp
    omega
  unfold splitBySpace
  rw [hlen]
  simp only [splitBySpaceAux]
  rw [indexByte_sep mb hsp]
  obtain ⟨tl, htl⟩ := splitBySpaceAux_head (mb.length + nb.length) nb (by omega)
  exact ⟨tl, by simp only [take_sep, drop_sep, htl]⟩

/-! ## The lsTree entry loop -/

/-- When the remaining content has no NUL byte (in particular when it is
empty, or is trailing garbage), the loop stops and reports no entries and
no error. -/
theorem lsLoopAux_nonul {nameOnly : Bool} (fuel : Nat) {c : Bytes} (h : ∀ x ∈ c, x ≠ 0) :
    lsLoopAux nameOnly fuel c = Res.ok [] := by
  cases fuel with
  | zero => rfl
  | succ f =>
    simp only [lsLoopAux]
    rw [indexByte_eq_none h]

/-- The loop on a body made of well-formed encoded entries followed by
NUL-free garbage parses exactly the entries, in order, with the name of
each recovered as `parts[1]` (the stored name cut at its first space). -/
theorem lsLoopAux_encBody {nameOnly : Bool} :
    ∀ (es : List (String × String × Bytes)) (fuel : Nat) (junk : Bytes),
      (∀ e ∈ es, wfEntry e) → (∀ x ∈ junk, x ≠ 0) →
      (encBody es ++ junk).length ≤ fuel →
      lsLoopAux nameOnly fuel (encBody es ++ junk) = Res.ok (es.map (displayOf nameOnly))
  | [], fuel, junk, _, hj, _ => by
    simp only [encBody, List.map_nil, List.flatten_nil, List.nil_append]
    exact lsLoopAux_nonul fuel hj
  | e :: es, fuel, junk, hwf, hj, hf => by
    obtain ⟨hm, hn, h20⟩ := hwf e (List.mem_cons_self e es)
    have hrec := fun f hfl =>
      @lsLoopAux_encBody nameOnly es f junk
        (fun x hx => hwf x (List.mem_cons_of_mem e hx)) hj hfl
    have hbody : encBody (e :: es) ++ junk =
        (bytesOfString e.1 ++ 32 :: bytesOfString e.2.1) ++
          0 :: (e.2.2 ++ (encBody es ++ junk)) := by
      simp only [encBody, List.map_cons, List.flatten_cons, encEntry3, encEntryBytes]
      simp [List.append_assoc]
    have hpre : ∀ x ∈ bytesOfString e.1 ++ 32 :: bytesOfString e.2.1, x ≠ 0 := by
      intro x hx
      rcases List.mem_append.mp hx with h1 | h2
      · exact (hm x h1).1
      · rcases List.mem_cons.mp h2 with h3 | h4
        · omega
        · exact hn x h4
    have hflen : 1 ≤ (encBody (e :: es) ++ junk).length := by
      rw [hbody]
      simp only [List.length_append, List.length_cons]
      omega
    cases fuel with
    | zero => omega
    | succ f =>
      have hfle : (encBody es ++ junk).length ≤ f := by
        rw [hbody] at hf
        simp only [List.length_append, List.length_cons] at hf ⊢
        omega
      have hlt : ¬ (e.2.2 ++ (encBody es ++ junk)).length < 20 := by
        simp only [List.length_append]
        omega
      obtain ⟨tl, htl⟩ := splitBySpace_sep (bytesOfString e.1) (bytesOfString e.2.1)
        (fun x hx => (hm x hx).2)
      rw [hbody]
      simp only [lsLoopAux]
      rw [indexByte_sep _ hpre]
      simp only [take_sep, drop_sep, htl, hlt, take_chunk _ _ h20, drop_chunk _ _ h20,
        hrec f hfle, if_false, List.map_cons]
      simp [displayOf]

/-- The loop from the body of a well-formed tree. -/
theorem lsLoop_encBody {nameOnly : Bool} (es : List (String × String × Bytes))
    (hwf : ∀ e ∈ es, wfEntry e) :
    lsLoop (encBody es) nameOnly = Res.ok (es.map (displayOf nameOnly)) := by
  have := @lsLoopAux_encBody nameOnly es (encBody es).length []
    hwf (by simp) (by simp)
  simpa using this

/-- `lsTree` on a framed tree whose body the loop parses successfully:
prefix check and header split succeed, and the loop result is sorted. -/
theorem lsTreeBytes_frame_ok {body : Bytes} {nameOnly : Bool} {l : List Bytes}
    (h : lsLoop body nameOnly = Res.ok l) :
    lsTreeBytes (frame "tree" body) nameOnly = Res.ok (sortLex l) := by
  have hpfx : (bytesOfString "tree").isPrefixOf (frame "tree" body) = true := by
    rw [List.isPrefixOf_iff_prefix]
    unfold frame
    exact List.prefix_append _ _
  have hpre : ∀ x ∈ bytesOfString "tree" ++ 32 :: decimalBytes body.length, x ≠ 0 :=
    frame_hdr_ne_zero (by decide) _
  have hidx : indexByte (frame "tree" body) 0 =
      some (bytesOfString "tree" ++ 32 :: decimalBytes body.length).length := by
    rw [frame_eq_sep]
    exact indexByte_sep _ hpre
  have hdrop : (frame "tree" body).drop
      ((bytesOfString "tree" ++ 32 :: decimalBytes body.length).length + 1) = body := by
    rw [frame_eq_sep]
    exact drop_sep _ _ _
  unfold lsTreeBytes
  simp only [hpfx, if_true, hidx, hdrop, h]

/-! ## writeTree on excluded-only listings -/

theorem collectEntries_excluded :
    ∀ (l : Listing) (s : Store), allExcludedB l = true → collectEntries l s = (s, [])
  | .nil, s, _ => rfl
  | .cons name child rest, s, h => by
    obtain ⟨h1, h2⟩ := Bool.and_eq_true_iff.mp h
    have hmem : name ∈ ignoredDirs := of_decide_eq_true h1
    cases child with
    | file c => simp [collectEntries, if_pos hmem, collectEntries_excluded rest s h2]
    | dir l2 => simp [collectEntries, if_pos hmem, collectEntries_excluded rest s h2]

/-! ## SHA-1 validation vectors (kernel-checked against published digests) -/

theorem sha1_vector_abc :
    sha1 (bytesOfString "abc") =
      [169, 153, 62, 54, 71, 6, 129, 106, 186, 62, 37, 113, 120, 80, 194, 108, 156, 208, 216, 157] := by
  decide

theorem sha1_vector_hello_blob :
    sha1 (bytesOfString "blob 6\x00hello\n") =
      [206, 1, 54, 37, 3, 11, 168, 219, 169, 6, 247, 86, 150, 127, 158, 156, 163, 148, 70, 74] := by
  decide

/-! ## The claims -/

/-- C1: the claim says every regular file's blob is written to the object
store during `writeTree` and is retrievable afterwards by its digest. The
code computes the blob's framed bytes and digest but discards the framed
bytes (`_, hash, err = hashObject(...)`) and never calls `writeObject` for
them: building a directory holding one file `a.txt` with content `"x"`
leaves a store holding exactly the one tree object, and no entry is keyed
by the blob's digest or holds the framed blob bytes. -/
theorem writeTree_blob_unwritten :
    (writeTreeL (Listing.cons "a.txt" (FS.file [120]) Listing.nil) []).1 =
      [(sha1 (treeObjectContent (encEntryBytes "100644" "a.txt" (sha1 (blobObjectContent [120])))),
        treeObjectContent (encEntryBytes "100644" "a.txt" (sha1 (blobObjectContent [120]))))] ∧
    ∀ p ∈ (writeTreeL (Listing.cons "a.txt" (FS.file [120]) Listing.nil) []).1,
      p.1 ≠ sha1 (blobObjectContent [120]) ∧ p.2 ≠ blobObjectContent [120] := by
  refine ⟨by decide, by decide⟩

/-- C2: the claim says a tree body whose final digest is short of 20 bytes
is rejected with a `FormatError`-class error. The code instead evaluates
`content[:20]` with only 19 bytes left, a Go slice-bounds runtime panic:
on `"tree 28\x00100644 a\x00"` followed by 19 digest bytes, `lsTree`
crashes rather than returning an error. -/
theorem lsTree_truncated_digest_crash :
    lsTreeBytes (bytesOfString "tree 28\x00100644 a\x00" ++ List.replicate 19 170) false =
      Res.crash "slice bounds out of range: sha" := by
  decide

/-- C3 counterexample: a tree body with no NUL at the start of an entry is
claimed to fail with `FormatError`; the code instead `break`s out of the
loop. A body `"abc"` (no NUL at all) yields a successful empty listing,
and a well-formed entry followed by NUL-free garbage `"junk"` yields that
entry successfully — never an error. -/
theorem lsTree_missing_nul_accepted :
    lsTreeBytes (frame "tree" (bytesOfString "abc")) true = Res.ok [] ∧
    lsTreeBytes
        (frame "tree"
          (encEntryBytes "100644" "a" (List.replicate 20 170) ++ bytesOfString "junk")) true =
      Res.ok [bytesOfString "a"] := by
  refine ⟨by decide, by decide⟩

/-- C3 (amended): when the content remaining at the start of an entry is
nonempty and contains no NUL byte, `lsTree` stops parsing (`break`) and
returns the entries parsed so far as a successful result, with no error:
one well-formed entry followed by such garbage lists exactly that entry. -/
theorem lsTree_break_returns_partial (sha junk : Bytes) (nameOnly : Bool)
    (h20 : sha.length = 20) (hj : ∀ x ∈ junk, x ≠ 0) (_hjne : junk ≠ []) :
    lsTreeBytes (frame "tree" (encEntryBytes "100644" "a" sha ++ junk)) nameOnly =
      Res.ok [displayOf nameOnly ("100644", "a", sha)] := by
  have hwf : ∀ e ∈ [(("100644" : String), ("a" : String), sha)], wfEntry e := by
    intro e he
    simp only [List.mem_singleton] at he
    subst he
    exact ⟨(by decide : ∀ x ∈ bytesOfString "100644", x ≠ 0 ∧ x ≠ 32),
      (by decide : ∀ x ∈ bytesOfString "a", x ≠ 0), h20⟩
  have hb : encEntryBytes "100644" "a" sha ++ junk =
      encBody [("100644", "a", sha)] ++ junk := by
    simp [encBody, encEntry3]
  have hloop : lsLoop (encBody [(("100644" : String), ("a" : String), sha)] ++ junk) nameOnly =
      Res.ok [displayOf nameOnly ("100644", "a", sha)] := by
    have := @lsLoopAux_encBody nameOnly [("100644", "a", sha)]
      (encBody [(("100644" : String), ("a" : String), sha)] ++ junk).length junk hwf hj
      (Nat.le_refl _)
    simpa [lsLoop] using this
  rw [hb, lsTreeBytes_frame_ok hloop]
  rfl

/-- C3 witness: the amended statement at a concrete truncated input. -/
theorem lsTree_break_returns_partial_witness :
    (List.replicate 20 1 : Bytes).length = 20 ∧
    (∀ x ∈ ([106] : Bytes), x ≠ 0) ∧
    ([106] : Bytes) ≠ [] ∧
    lsTreeBytes (frame "tree" (encEntryBytes "100644" "a" (List.replicate 20 1) ++ [106])) true =
      Res.ok [displayOf true ("100644", "a", List.replicate 20 1)] :=
  ⟨by decide, by decide, by decide,
    lsTree_break_returns_partial (List.replicate 20 1) [106] true (by decide) (by decide)
      (by decide)⟩

/-- C4 counterexample: unframing on the blob read path is claimed to fail
when there is no NUL or when the declared size mismatches the body. The
code returns a nil body with a nil error when there is no NUL, and never
reads the declared size: `"blob 999\x00hi"` (declared 999, actual 2) is
accepted. -/
theorem unframe_no_error_cex :
    readBlobDecoded (bytesOfString "nonul") = (none, none) ∧
    readBlobDecoded (bytesOfString "blob 999\x00hi") = (some (bytesOfString "hi"), none) := by
  refine ⟨by decide, by decide⟩

/-- C4 (amended): unframing on the blob read path never fails: with no NUL
byte in the input it returns the nil body and nil error, and otherwise it
returns everything after the first NUL, ignoring the declared size (and
the type tag) entirely. -/
theorem unframe_loose (pre post l : Bytes) (hpre : ∀ x ∈ pre, x ≠ 0)
    (hl : ∀ x ∈ l, x ≠ 0) :
    readBlobDecoded (pre ++ 0 :: post) = (some post, none) ∧
    readBlobDecoded l = (none, none) := by
  constructor
  · simp [readBlobDecoded, getBlobContent_sep hpre]
  · simp [readBlobDecoded, getBlobContent_eq_none hl]

/-- C4 witness: the amended statement at concrete inputs. -/
theorem unframe_loose_witness :
    (∀ x ∈ bytesOfString "tree 0", x ≠ 0) ∧
    (∀ x ∈ bytesOfString "abc", x ≠ 0) ∧
    (readBlobDecoded (bytesOfString "tree 0" ++ 0 :: [1, 2]) = (some [1, 2], none) ∧
      readBlobDecoded (bytesOfString "abc") = (none, none)) :=
  ⟨by decide, by decide, unframe_loose (bytesOfString "tree 0") [1, 2] (bytesOfString "abc")
    (by decide) (by decide)⟩

/-- C5: encoding the same logical entry set in any two input orders yields
byte-identical framed tree objects, and hence identical hashes, because
the encoded entry byte strings are sorted byte-wise lexicographically
before concatenation and framing. -/
theorem tree_encoding_perm_invariant (l1 l2 : List (String × String × Bytes))
    (h : List.Perm l1 l2) :
    treeObjectOfEntries l1 = treeObjectOfEntries l2 ∧
    sha1 (treeObjectOfEntries l1) = sha1 (treeObjectOfEntries l2) := by
  have hs : sortLex (l1.map encEntry3) = sortLex (l2.map encEntry3) :=
    sortLex_eq_of_perm (h.map encEntry3)
  unfold treeObjectOfEntries
  rw [hs]
  exact ⟨rfl, rfl⟩

/-- C5 witness: two concrete orderings of the same two entries. -/
theorem tree_encoding_perm_invariant_witness :
    List.Perm
      [(("40000" : String), ("sub" : String), (List.replicate 20 2 : Bytes)),
        ("100644", "a.txt", List.replicate 20 3)]
      [("100644", "a.txt", List.replicate 20 3), ("40000", "sub", List.replicate 20 2)] ∧
    (treeObjectOfEntries
        [("40000", "sub", List.replicate 20 2), ("100644", "a.txt", List.replicate 20 3)] =
      treeObjectOfEntries
        [("100644", "a.txt", List.replicate 20 3), ("40000", "sub", List.replicate 20 2)] ∧
    sha1 (treeObjectOfEntries
        [("40000", "sub", List.replicate 20 2), ("100644", "a.txt", List.replicate 20 3)]) =
      sha1 (treeObjectOfEntries
        [("100644", "a.txt", List.replicate 20 3), ("40000", "sub", List.replicate 20 2)])) :=
  ⟨List.Perm.swap _ _ _, tree_encoding_perm_invariant _ _ (List.Perm.swap _ _ _)⟩

/-- C6: decoding the blob obtained by encoding any byte sequence — taking
everything after the first NUL of `"blob <len>\x00" ++ b` — returns
exactly `b`: the header contains no NUL byte, so the separator found is
the header's. -/
theorem blob_roundtrip (b : Bytes) : getBlobContent ((hashObject b).1) = some b := by
  show getBlobContent (blobObjectContent b) = some b
  rw [blobObjectContent_eq_frame, frame_eq_sep]
  exact getBlobContent_sep (frame_hdr_ne_zero (by decide) _)

/-- C7: `hashObject` hashes exactly the framed bytes
`"blob <decimal length>\x00<file bytes>"`; in particular for a file
containing `"hello\n"` the digest is that of `"blob 6\x00hello\n"`. -/
theorem hashObject_frames (b : Bytes) :
    (hashObject b).1 = frame "blob" b ∧
    (hashObject b).2 = sha1 (frame "blob" b) ∧
    (hashObject (bytesOfString "hello\n")).2 = sha1 (bytesOfString "blob 6\x00hello\n") := by
  refine ⟨blobObjectContent_eq_frame b, ?_, ?_⟩
  · show sha1 (blobObjectContent b) = sha1 (frame "blob" b)
    rw [blobObjectContent_eq_frame]
  · show sha1 (blobObjectContent (bytesOfString "hello\n")) =
      sha1 (bytesOfString "blob 6\x00hello\n")
    rw [(by decide : blobObjectContent (bytesOfString "hello\n") =
      bytesOfString "blob 6\x00hello\n")]

/-- C8: a directory whose listing has no included entries (empty, or only
excluded names) produces the framed object `"tree 0\x00"`, writes it, and
returns its hash; and in a parent listing such a subdirectory contributes
the entry `"40000 <name>\x00" ++ hash("tree 0\x00")`. -/
theorem writeTree_empty_dir (l : Listing) (s : Store) (name : String) (rest : Listing)
    (s2 : Store) (h : allExcludedB l = true) (hname : name ∉ ignoredDirs) :
    writeTreeL l s =
      (writeObject s (sha1 (treeObjectContent [])) (treeObjectContent []),
        sha1 (treeObjectContent [])) ∧
    treeObjectContent [] = bytesOfString "tree 0\x00" ∧
    collectEntries (Listing.cons name (FS.dir l) rest) s2 =
      ((collectEntries rest
          (writeObject s2 (sha1 (treeObjectContent [])) (treeObjectContent []))).1,
        encEntryBytes "40000" name (sha1 (treeObjectContent []))
          :: (collectEntries rest
            (writeObject s2 (sha1 (treeObjectContent [])) (treeObjectContent []))).2) := by
  refine ⟨?_, by decide, ?_⟩
  · unfold writeTreeL
    rw [collectEntries_excluded l s h]
    rfl
  · simp only [collectEntries, if_neg hname, collectEntries_excluded l s2 h]
    rfl

/-- C8 witness: a listing holding only the excluded name `".git"`, inside
a parent entry named `"sub"`. -/
theorem writeTree_empty_dir_witness :
    allExcludedB (Listing.cons ".git" (FS.dir Listing.nil) Listing.nil) = true ∧
    "sub" ∉ ignoredDirs ∧
    (writeTreeL (Listing.cons ".git" (FS.dir Listing.nil) Listing.nil) [] =
      (writeObject [] (sha1 (treeObjectContent [])) (treeObjectContent []),
        sha1 (treeObjectContent [])) ∧
    treeObjectContent [] = bytesOfString "tree 0\x00" ∧
    collectEntries
        (Listing.cons "sub" (FS.dir (Listing.cons ".git" (FS.dir Listing.nil) Listing.nil))
          Listing.nil) [] =
      ((collectEntries Listing.nil
          (writeObject [] (sha1 (treeObjectContent [])) (treeObjectContent []))).1,
        encEntryBytes "40000" "sub" (sha1 (treeObjectContent []))
          :: (collectEntries Listing.nil
            (writeObject [] (sha1 (treeObjectContent [])) (treeObjectContent []))).2)) :=
  ⟨by decide, by decide,
    writeTree_empty_dir (Listing.cons ".git" (FS.dir Listing.nil) Listing.nil) [] "sub"
      Listing.nil [] (by decide) (by decide)⟩

/-- C9 counterexample: the claim says `lsTree` displays each entry's name;
for the stored name `"x y"` (a legal entry name) the produced string is
`"x"`, not the name. -/
theorem lsTree_space_name_cex :
    lsTreeBytes (frame "tree" (encEntryBytes "100644" "x y" (List.replicate 20 7))) true =
      Res.ok [bytesOfString "x"] ∧
    bytesOfString "x" ≠ bytesOfString "x y" := by
  refine ⟨by decide, by decide⟩

/-- C9 (amended): for every tree whose entries are well-formed (mode free
of NUL and space bytes, name free of NUL bytes, 20-byte digest), `lsTree`
produces one display string per entry — the name truncated at its first
space when `nameOnly` is set (equal to the stored name when the name has
no space), otherwise `"<mode> <truncated name> <hex digest>"` — and the
returned sequence is the byte-wise lexicographic sort of those strings,
independent of the storage order of the entries. -/
theorem lsTree_listing_spec (es : List (String × String × Bytes)) (nameOnly : Bool)
    (hwf : ∀ e ∈ es, wfEntry e) :
    lsTreeBytes (frame "tree" (encBody es)) nameOnly =
      Res.ok (sortLex (es.map (displayOf nameOnly))) ∧
    List.Sorted lexLeP (sortLex (es.map (displayOf nameOnly))) :=
  ⟨lsTreeBytes_frame_ok (lsLoop_encBody es hwf), sortLex_sorted _⟩

/-- C9 witness: two concrete entries stored out of display order. -/
theorem lsTree_listing_spec_witness :
    (∀ e ∈ [(("100644" : String), ("b.txt" : String), (List.replicate 20 5 : Bytes)),
        ("40000", "a", List.replicate 20 6)], wfEntry e) ∧
    (lsTreeBytes
        (frame "tree"
          (encBody [("100644", "b.txt", List.replicate 20 5), ("40000", "a", List.replicate 20 6)]))
        false =
      Res.ok (sortLex
        ([(("100644" : String), ("b.txt" : String), (List.replicate 20 5 : Bytes)),
          ("40000", "a", List.replicate 20 6)].map (displayOf false))) ∧
    List.Sorted lexLeP (sortLex
      ([(("100644" : String), ("b.txt" : String), (List.replicate 20 5 : Bytes)),
        ("40000", "a", List.replicate 20 6)].map (displayOf false)))) :=
  ⟨by decide,
    lsTree_listing_spec
      [("100644", "b.txt", List.replicate 20 5), ("40000", "a", List.replicate 20 6)] false
      (by decide)⟩

/-- C10: a well-formed tree entry whose name contains a space is displayed
with the name cut at the first space: the header is split on every space
and only the second token is printed, so the printed name `"a"` differs
from the stored name `"a b"`, in both display modes. -/
theorem lsTree_space_name_truncation :
    lsTreeBytes (frame "tree" (encEntryBytes "100644" "a b" (List.replicate 20 171))) true =
      Res.ok [bytesOfString "a"] ∧
    lsTreeBytes (frame "tree" (encEntryBytes "100644" "a b" (List.replicate 20 171))) false =
      Res.ok [bytesOfString "100644 a " ++ hexBytes (List.replicate 20 171)] ∧
    bytesOfString "a" ≠ bytesOfString "a b" := by
  refine ⟨by decide, by decide, by decide⟩

end GitGo
